import Mathlib

/-!
# Verification of the bosonic-backend block operations

Shallow embedding of `strawberryfields/backends/bosonicbackend/ops.py`.

Arrays are modelled as lists: a vector is a `List α`, a matrix a
`List (List α)`, and a batched object a list of those.  Entries are kept
polymorphic over a type with `0` and `1`, covering the real and complex
instantiations used by the code.

numpy primitives used by the source are modelled as follows:
* `np.delete(xs, ids, axis)` keeps the entries whose index is not in `ids`
  (numpy builds a boolean mask, so duplicate indices collapse); this is
  `npDelete`.
* fancy indexing `xs[ids]` maps `ids` over the array in the given order;
  this is `selectD`.
* `list(set(np.arange(n)) - set(ids))` produces the complement of `ids` in
  `{0, …, n-1}`; CPython iterates a set of small non-negative integers
  below the hash-table size in ascending order, so the resulting list is
  the ascending complement; this is `idtokeep`.
* the in-place write loops of `reassemble` and `reassemble_vector` are
  embedded as explicit state passing: a fold of single-cell writes
  (`writes`, `vwrites`) over the list of (position, value) pairs the
  loops enumerate, starting from the `np.zeros` array, and the vectorised
  block assignment of the batched variants is the same fold applied to
  each slice of the batch (base `np.eye` for `reassemble_multi`).
-/

namespace Ops

/-- Vectors are lists of entries. -/
abbrev Vec (α : Type) := List α

/-- Matrices are lists of rows. -/
abbrev Mat (α : Type) := List (List α)

/-- Entry `m[i, j]` of a matrix, with `0` outside the bounds. -/
def entry {α : Type} [Zero α] (m : Mat α) (i j : Nat) : α :=
  (m.getD i []).getD j 0

/-- `np.delete` starting from index counter `k`: keep the entries whose
global index is not in `ids`. -/
def deleteFrom {β : Type} (k : Nat) (xs : List β) (ids : List Nat) : List β :=
  match xs with
  | [] => []
  | x :: t => if k ∈ ids then deleteFrom (k + 1) t ids
              else x :: deleteFrom (k + 1) t ids

/-- `np.delete(xs, ids)` along one axis: remove the entries at the indices
in `ids` (mask semantics: duplicates in `ids` collapse). -/
def npDelete {β : Type} (xs : List β) (ids : List Nat) : List β :=
  deleteFrom 0 xs ids

/-- Fancy indexing `xs[ids]`: the entries at `ids`, in the order of `ids`,
with default `d` outside the bounds. -/
def selectD {β : Type} (xs : List β) (d : β) (ids : List Nat) : List β :=
  ids.map (fun i => xs.getD i d)

/-- `list(set(np.arange(n)) - set(ids))`: the ascending complement of
`ids` in `{0, …, n-1}`. -/
def idtokeep (n : Nat) (ids : List Nat) : List Nat :=
  (List.range n).filter (fun i => i ∉ ids)

/-- `chop_in_blocks(m, idtodelete)`:
`A = np.delete(np.delete(m, ids, axis=0), ids, axis=1)`,
`B = np.delete(m[:, ids], ids, axis=0)`, and
`C[i, j] = m[ids[i], ids[j]]` filled by the double loop over `ids`. -/
def chop_in_blocks {α : Type} [Zero α] (m : Mat α) (ids : List Nat) :
    Mat α × Mat α × Mat α :=
  ((npDelete m ids).map (fun r => npDelete r ids),
   npDelete (m.map (fun r => selectD r 0 ids)) ids,
   ids.map (fun gi => ids.map (fun gj => entry m gi gj)))

/-- `chop_in_blocks_multi(m, idtodelete)`: per slice of the batch,
`A = np.delete(np.delete(·, ids, axis=1), ids, axis=2)`,
`B = np.delete(m[:, :, ids], ids, axis=1)`, and
`C = m[:, ids, :][:, :, ids]`. -/
def chop_in_blocks_multi {α : Type} [Zero α] (ms : List (Mat α))
    (ids : List Nat) : List (Mat α) × List (Mat α) × List (Mat α) :=
  (ms.map (fun m => (npDelete m ids).map (fun r => npDelete r ids)),
   ms.map (fun m => npDelete (m.map (fun r => selectD r 0 ids)) ids),
   ms.map (fun m => (selectD m [] ids).map (fun r => selectD r 0 ids)))

/-- `chop_in_blocks_vector(v, idtodelete)`:
`va = v[idtokeep]` with `idtokeep` the ascending complement of
`idtodelete` in `{0, …, len(v)-1}`, and `vb = v[idtodelete]`. -/
def chop_in_blocks_vector {α : Type} [Zero α] (v : Vec α) (ids : List Nat) :
    Vec α × Vec α :=
  (selectD v 0 (idtokeep v.length ids), selectD v 0 ids)

/-- `chop_in_blocks_vector_multi(v, idtodelete)`: as the single-vector
variant, per slice, with the complement taken in `{0, …, len(v[0])-1}`. -/
def chop_in_blocks_vector_multi {α : Type} [Zero α] (vs : List (Vec α))
    (ids : List Nat) : List (Vec α) × List (Vec α) :=
  (vs.map (fun v => selectD v 0 (idtokeep (vs.getD 0 []).length ids)),
   vs.map (fun v => selectD v 0 ids))

/-- Single-cell write `m[i, j] = v` (no-op outside the bounds, as a list
update). -/
def setEntry {α : Type} (m : Mat α) (i j : Nat) (v : α) : Mat α :=
  m.set i ((m.getD i []).set j v)

/-- A sequence of single-cell writes `m[w.1, w.2.1] = w.2.2`, performed
left to right. -/
def writes {α : Type} (m : Mat α) (ws : List (Nat × Nat × α)) : Mat α :=
  ws.foldl (fun acc w => setEntry acc w.1 w.2.1 w.2.2) m

/-- A sequence of single-entry writes `v[w.1] = w.2`, performed left to
right. -/
def vwrites {α : Type} (v : Vec α) (ws : List (Nat × α)) : Vec α :=
  ws.foldl (fun acc w => acc.set w.1 w.2) v

/-- The list of cell writes performed by the double loop
`for i, i1 in enumerate(ind): for j, j1 in enumerate(ind):
newmat[i1, j1] = A[i, j]`. -/
def blockWrites {α : Type} [Zero α] (A : Mat α) (ind : List Nat) :
    List (Nat × Nat × α) :=
  ind.enum.flatMap (fun p => ind.enum.map (fun q => (p.2, q.2, entry A p.1 q.1)))

/-- `reassemble(A, idtodelete)`: start from `np.zeros((ntot, ntot))` with
`ntot = len(A) + len(idtodelete)`, write `A` into the positions
`ind × ind` with `ind` the ascending complement of `idtodelete`, then set
`newmat[i, i] = 1.0` for each `i` in `idtodelete`. -/
def reassemble {α : Type} [Zero α] [One α] (A : Mat α) (ids : List Nat) :
    Mat α :=
  writes
    (List.replicate (A.length + ids.length)
      (List.replicate (A.length + ids.length) (0 : α)))
    (blockWrites A (idtokeep (A.length + ids.length) ids) ++
      ids.map (fun i => (i, i, (1 : α))))

/-- `np.eye n`: the identity matrix. -/
def eye {α : Type} [Zero α] [One α] (n : Nat) : Mat α :=
  (List.range n).map (fun i => (List.range n).map (fun j => if j = i then 1 else 0))

/-- `reassemble_multi(A, idtodelete)`: per slice of the batch, start from
`np.eye(ntot)` (the `np.tile` template) with
`ntot = len(A[0]) + len(idtodelete)`, and write the slice of `A` into the
positions `ind × ind` (`newmat[np.ix_(arange, ind, ind)] = A`). -/
def reassemble_multi {α : Type} [Zero α] [One α] (As : List (Mat α))
    (ids : List Nat) : List (Mat α) :=
  As.map (fun A => writes (eye ((As.getD 0 []).length + ids.length))
    (blockWrites A (idtokeep ((As.getD 0 []).length + ids.length) ids)))

/-- `reassemble_vector(va, idtodelete)`: start from `np.zeros(ntot)` with
`ntot = len(va) + len(idtodelete)`, and write
`newv[j1] = va[j]` for `j, j1 in enumerate(ind)`. -/
def reassemble_vector {α : Type} [Zero α] (va : Vec α) (ids : List Nat) :
    Vec α :=
  vwrites (List.replicate (va.length + ids.length) (0 : α))
    ((idtokeep (va.length + ids.length) ids).enum.map
      (fun p => (p.2, va.getD p.1 0)))

/-- `reassemble_vector_multi(va, idtodelete)`: per slice of the batch,
start from `np.zeros(ntot)` with `ntot = len(va[0]) + len(idtodelete)`,
and assign the slice of `va` at the kept indices (`newv[:, ind] = va`). -/
def reassemble_vector_multi {α : Type} [Zero α] (vas : List (Vec α))
    (ids : List Nat) : List (Vec α) :=
  vas.map (fun va =>
    vwrites (List.replicate ((vas.getD 0 []).length + ids.length) (0 : α))
      ((idtokeep ((vas.getD 0 []).length + ids.length) ids).enum.map
        (fun p => (p.2, va.getD p.1 0))))

/-- A matrix is `n × n`: `n` rows, each of length `n`. -/
def IsSquare {α : Type} (m : Mat α) (n : Nat) : Prop :=
  m.length = n ∧ ∀ r ∈ m, r.length = n

/-- `idtodelete` is valid for dimension `n`: distinct indices in `[0, n)`. -/
def ValidIds (n : Nat) (ids : List Nat) : Prop :=
  ids.Nodup ∧ ∀ i ∈ ids, i < n

instance {α : Type} [DecidableEq α] (m : Mat α) (n : Nat) :
    Decidable (IsSquare m n) := by
  unfold IsSquare; infer_instance

instance (n : Nat) (ids : List Nat) : Decidable (ValidIds n ids) := by
  unfold ValidIds; infer_instance

/-! ## Pointwise characterisation of the numpy primitives -/

theorem getD_map_lt {β γ : Type} (f : β → γ) (l : List β) {i : Nat}
    (h : i < l.length) (d : γ) (dβ : β) :
    (l.map f).getD i d = f (l.getD i dβ) := by
  rw [List.getD_eq_getElem _ _ (by simpa using h), List.getD_eq_getElem _ _ h,
    List.getElem_map]

theorem deleteFrom_eq {β : Type} (ids : List Nat) (d : β) :
    ∀ (k : Nat) (xs : List β), deleteFrom k xs ids =
      ((List.range' k xs.length).filter (fun i => i ∉ ids)).map
        (fun i => xs.getD (i - k) d) := by
  intro k xs
  induction xs generalizing k with
  | nil => simp [deleteFrom]
  | cons x t ih =>
    show (if k ∈ ids then deleteFrom (k + 1) t ids
          else x :: deleteFrom (k + 1) t ids) = _
    rw [List.length_cons, List.range'_succ]
    by_cases hk : k ∈ ids
    · rw [if_pos hk, List.filter_cons_of_neg (by simpa using hk), ih (k + 1)]
      apply List.map_congr_left
      intro i hi
      have hmem : i ∈ List.range' (k + 1) t.length :=
        (List.mem_filter.mp hi).1
      have hge : k + 1 ≤ i := (List.mem_range'_1.mp hmem).1
      have : i - k = (i - (k + 1)) + 1 := by omega
      rw [this, List.getD_cons_succ]
    · rw [if_neg hk, List.filter_cons_of_pos (by simpa using hk),
        List.map_cons, Nat.sub_self, List.getD_cons_zero, ih (k + 1)]
      congr 1
      apply List.map_congr_left
      intro i hi
      have hmem : i ∈ List.range' (k + 1) t.length :=
        (List.mem_filter.mp hi).1
      have hge : k + 1 ≤ i := (List.mem_range'_1.mp hmem).1
      have : i - k = (i - (k + 1)) + 1 := by omega
      rw [this, List.getD_cons_succ]

theorem npDelete_eq {β : Type} (xs : List β) (ids : List Nat) (d : β) :
    npDelete xs ids = (idtokeep xs.length ids).map (fun i => xs.getD i d) := by
  rw [npDelete, deleteFrom_eq ids d 0 xs, idtokeep, List.range_eq_range']
  exact List.map_congr_left (fun i _ => by rw [Nat.sub_zero])

theorem mem_idtokeep {n : Nat} {ids : List Nat} {i : Nat} :
    i ∈ idtokeep n ids ↔ i < n ∧ i ∉ ids := by
  simp [idtokeep, List.mem_filter, List.mem_range]

theorem idtokeep_nodup (n : Nat) (ids : List Nat) : (idtokeep n ids).Nodup :=
  (List.nodup_range n).filter _

theorem idtokeep_sorted (n : Nat) (ids : List Nat) :
    (idtokeep n ids).Pairwise (· < ·) :=
  (List.pairwise_lt_range n).filter _

theorem length_idtokeep {n : Nat} {ids : List Nat} (h : ValidIds n ids) :
    (idtokeep n ids).length = n - ids.length := by
  have hperm : ((List.range n).filter (fun i => i ∈ ids)).Perm ids := by
    rw [List.perm_ext_iff_of_nodup ((List.nodup_range n).filter _) h.1]
    intro a
    simp only [List.mem_filter, List.mem_range, decide_eq_true_eq]
    exact ⟨fun hx => hx.2, fun hx => ⟨h.2 a hx, hx⟩⟩
  have hlen : ((List.range n).filter (fun i => i ∈ ids)).length = ids.length :=
    hperm.length_eq
  have hsplit := List.length_eq_countP_add_countP
    (fun i => decide (i ∈ ids)) (List.range n)
  rw [List.countP_eq_length_filter, List.countP_eq_length_filter] at hsplit
  have hset : (List.filter (fun a => decide ¬(decide (a ∈ ids) = true))
      (List.range n)) = idtokeep n ids := by
    rw [idtokeep]
    apply List.filter_congr
    intro a _
    simp
  rw [hset, hlen, List.length_range] at hsplit
  omega

theorem idtokeep_lt {n : Nat} {ids : List Nat} {i : Nat}
    (h : i ∈ idtokeep n ids) : i < n := (mem_idtokeep.mp h).1

/-- `chop_in_blocks` on an `n × n` matrix, as entry maps over the
ascending kept indices and over `idtodelete`. -/
theorem chop_in_blocks_eq {α : Type} [Zero α] {m : Mat α} {n : Nat}
    (hm : IsSquare m n) (ids : List Nat) :
    chop_in_blocks m ids =
      ((idtokeep n ids).map (fun g => (idtokeep n ids).map (fun g' => entry m g g')),
       (idtokeep n ids).map (fun g => ids.map (fun g' => entry m g g')),
       ids.map (fun g => ids.map (fun g' => entry m g g'))) := by
  obtain ⟨hlen, hrow⟩ := hm
  have hrowlen : ∀ g, g < n → (m.getD g []).length = n := by
    intro g hg
    have : m.getD g [] ∈ m := by
      rw [List.getD_eq_getElem _ _ (by omega : g < m.length)]
      exact List.getElem_mem _
    exact hrow _ this
  refine Prod.ext ?_ (Prod.ext ?_ rfl)
  · show (npDelete m ids).map (fun r => npDelete r ids) = _
    rw [npDelete_eq m ids [], hlen, List.map_map]
    apply List.map_congr_left
    intro g hg
    have hgn : g < n := idtokeep_lt hg
    show npDelete (m.getD g []) ids = _
    rw [npDelete_eq (m.getD g []) ids 0, hrowlen g hgn]
    rfl
  · show npDelete (m.map (fun r => selectD r 0 ids)) ids = _
    rw [npDelete_eq _ ids [], List.length_map, hlen]
    apply List.map_congr_left
    intro g hg
    have hgn : g < n := idtokeep_lt hg
    rw [getD_map_lt _ m (by omega) [] []]
    rfl

/-- The `C` slice of the batched chop coincides with the `C` block of the
single-matrix chop. -/
theorem chop_multi_C_slice {α : Type} [Zero α] (m : Mat α) (ids : List Nat) :
    (selectD m [] ids).map (fun r => selectD r 0 ids) =
      ids.map (fun gi => ids.map (fun gj => entry m gi gj)) := by
  rw [selectD, List.map_map]
  rfl

/-! ## Single-cell writes -/

theorem getD_set' {β : Type} (l : List β) (i r : Nat) (a d : β) :
    (l.set i a).getD r d = if i = r ∧ i < l.length then a else l.getD r d := by
  rw [List.getD_eq_getElem?_getD, List.getD_eq_getElem?_getD, List.getElem?_set]
  by_cases h1 : i = r
  · subst h1
    by_cases h2 : i < l.length
    · simp [h2]
    · have : l[i]? = none := List.getElem?_eq_none (by omega)
      simp [h2, this]
  · simp [h1]

theorem getD_replicate_lt {β : Type} (a d : β) {n r : Nat} (h : r < n) :
    (List.replicate n a).getD r d = a := by
  rw [List.getD_eq_getElem _ _ (by simpa using h), List.getElem_replicate]

theorem length_setEntry {α : Type} (m : Mat α) (i j : Nat) (v : α) :
    (setEntry m i j v).length = m.length := List.length_set ..

theorem rowlen_setEntry {α : Type} (m : Mat α) (i j r : Nat) (v : α) :
    ((setEntry m i j v).getD r []).length = (m.getD r []).length := by
  unfold setEntry
  rw [getD_set']
  by_cases h : i = r ∧ i < m.length
  · rw [if_pos h, List.length_set, h.1]
  · rw [if_neg h]

theorem entry_setEntry {α : Type} [Zero α] (m : Mat α) (i j r c : Nat) (v : α) :
    entry (setEntry m i j v) r c =
      if i = r ∧ j = c ∧ i < m.length ∧ j < (m.getD i []).length then v
      else entry m r c := by
  unfold entry setEntry
  rw [getD_set' m i r _ []]
  by_cases h1 : i = r ∧ i < m.length
  · rw [if_pos h1, getD_set' _ j c v 0]
    obtain ⟨hir, hlt⟩ := h1
    subst hir
    by_cases h2 : j = c ∧ j < (m.getD i []).length
    · rw [if_pos h2, if_pos ⟨rfl, h2.1, hlt, h2.2⟩]
    · rw [if_neg h2, if_neg (by tauto)]
  · rw [if_neg h1, if_neg (by tauto)]

theorem length_writes {α : Type} (ws : List (Nat × Nat × α)) (m : Mat α) :
    (writes m ws).length = m.length := by
  induction ws generalizing m with
  | nil => rfl
  | cons w t ih =>
    show (writes (setEntry m w.1 w.2.1 w.2.2) t).length = m.length
    rw [ih, length_setEntry]

theorem rowlen_writes {α : Type} (ws : List (Nat × Nat × α)) (m : Mat α)
    (r : Nat) :
    ((writes m ws).getD r []).length = (m.getD r []).length := by
  induction ws generalizing m with
  | nil => rfl
  | cons w t ih =>
    show ((writes (setEntry m w.1 w.2.1 w.2.2) t).getD r []).length = _
    rw [ih, rowlen_setEntry]

theorem entry_writes_of_notmem {α : Type} [Zero α]
    (ws : List (Nat × Nat × α)) (m : Mat α) (r c : Nat)
    (h : ∀ w ∈ ws, ¬(w.1 = r ∧ w.2.1 = c)) :
    entry (writes m ws) r c = entry m r c := by
  induction ws generalizing m with
  | nil => rfl
  | cons w t ih =>
    show entry (writes (setEntry m w.1 w.2.1 w.2.2) t) r c = _
    rw [ih _ (fun w' hw' => h w' (List.mem_cons_of_mem _ hw')),
      entry_setEntry, if_neg (by have := h w (List.mem_cons_self w t); tauto)]

theorem entry_writes_of_mem {α : Type} [Zero α]
    (ws : List (Nat × Nat × α)) (m : Mat α) {r c : Nat} {v : α}
    (hnd : (ws.map (fun w => (w.1, w.2.1))).Nodup)
    (hmem : (r, c, v) ∈ ws)
    (hr : r < m.length) (hc : c < (m.getD r []).length) :
    entry (writes m ws) r c = v := by
  induction ws generalizing m with
  | nil => cases hmem
  | cons w t ih =>
    rw [List.map_cons, List.nodup_cons] at hnd
    show entry (writes (setEntry m w.1 w.2.1 w.2.2) t) r c = v
    rcases List.mem_cons.mp hmem with heq | hmem'
    · cases heq
      have hnone : ∀ w' ∈ t, ¬(w'.1 = r ∧ w'.2.1 = c) := by
        intro w' hw' hcon
        exact hnd.1 (List.mem_map.mpr ⟨w', hw', by simp [hcon.1, hcon.2]⟩)
      rw [entry_writes_of_notmem t _ r c hnone,
        entry_setEntry, if_pos ⟨rfl, rfl, hr, hc⟩]
    · exact ih (setEntry m w.1 w.2.1 w.2.2) hnd.2 hmem'
        (by rw [length_setEntry]; exact hr)
        (by rw [rowlen_setEntry]; exact hc)

theorem length_vwrites {α : Type} (ws : List (Nat × α)) (v : Vec α) :
    (vwrites v ws).length = v.length := by
  induction ws generalizing v with
  | nil => rfl
  | cons w t ih =>
    show (vwrites (v.set w.1 w.2) t).length = v.length
    rw [ih, List.length_set]

theorem getD_vwrites_of_notmem {α : Type} (ws : List (Nat × α)) (v : Vec α)
    (r : Nat) (d : α) (h : ∀ w ∈ ws, w.1 ≠ r) :
    (vwrites v ws).getD r d = v.getD r d := by
  induction ws generalizing v with
  | nil => rfl
  | cons w t ih =>
    show (vwrites (v.set w.1 w.2) t).getD r d = _
    rw [ih _ (fun w' hw' => h w' (List.mem_cons_of_mem _ hw')), getD_set',
      if_neg (by have := h w (List.mem_cons_self w t); tauto)]

theorem getD_vwrites_of_mem {α : Type} (ws : List (Nat × α)) (v : Vec α)
    {r : Nat} {x : α} (d : α)
    (hnd : (ws.map Prod.fst).Nodup) (hmem : (r, x) ∈ ws)
    (hr : r < v.length) :
    (vwrites v ws).getD r d = x := by
  induction ws generalizing v with
  | nil => cases hmem
  | cons w t ih =>
    rw [List.map_cons, List.nodup_cons] at hnd
    show (vwrites (v.set w.1 w.2) t).getD r d = x
    rcases List.mem_cons.mp hmem with heq | hmem'
    · cases heq
      have hnone : ∀ w' ∈ t, w'.1 ≠ r := by
        intro w' hw' hcon
        exact hnd.1 (List.mem_map.mpr ⟨w', hw', hcon⟩)
      rw [getD_vwrites_of_notmem t _ r d hnone, getD_set',
        if_pos ⟨rfl, hr⟩]
    · exact ih (v.set w.1 w.2) hnd.2 hmem' (by rw [List.length_set]; exact hr)

/-! ## The write list of the reassembly loops -/

theorem enum_flatMap_snd {γ β : Type} (l : List γ) (g : γ → List β) :
    l.enum.flatMap (fun p => g p.2) = l.flatMap g := by
  have h := List.flatMap_map Prod.snd g l.enum
  rw [List.enum_map_snd] at h
  exact h.symm

theorem enum_map_snd_fn {γ β : Type} (l : List γ) (g : γ → β) :
    l.enum.map (fun p => g p.2) = l.map g := by
  have h : (l.enum.map Prod.snd).map g = l.enum.map (fun p => g p.2) := by
    rw [List.map_map]
    rfl
  rw [List.enum_map_snd] at h
  exact h.symm

theorem blockWrites_mem_block {α : Type} [Zero α] (A : Mat α)
    (ind : List Nat) {r c : Nat} (hr : r ∈ ind) (hc : c ∈ ind) :
    (r, c, entry A (ind.indexOf r) (ind.indexOf c)) ∈ blockWrites A ind := by
  unfold blockWrites
  rw [List.mem_flatMap]
  refine ⟨(ind.indexOf r, r), ?_, ?_⟩
  · rw [List.mem_enum_iff_getElem?,
      List.getElem?_eq_getElem (List.indexOf_lt_length.mpr hr),
      List.getElem_indexOf]
  · exact List.mem_map.mpr ⟨(ind.indexOf c, c), by
      rw [List.mem_enum_iff_getElem?,
        List.getElem?_eq_getElem (List.indexOf_lt_length.mpr hc),
        List.getElem_indexOf], rfl⟩

theorem blockWrites_pos {α : Type} [Zero α] (A : Mat α) (ind : List Nat)
    {w : Nat × Nat × α} (hw : w ∈ blockWrites A ind) :
    w.1 ∈ ind ∧ w.2.1 ∈ ind := by
  unfold blockWrites at hw
  rw [List.mem_flatMap] at hw
  obtain ⟨p, hp, hw⟩ := hw
  rw [List.mem_map] at hw
  obtain ⟨q, hq, rfl⟩ := hw
  rw [List.mem_enum_iff_getElem?] at hp hq
  exact ⟨List.getElem?_mem hp, List.getElem?_mem hq⟩

theorem blockWrites_map_pos {α : Type} [Zero α] (A : Mat α)
    (ind : List Nat) :
    (blockWrites A ind).map (fun w => (w.1, w.2.1)) = ind ×ˢ ind := by
  unfold blockWrites
  rw [List.map_flatMap]
  have h1 : ∀ p : Nat × Nat,
      List.map (fun w : Nat × Nat × α => (w.1, w.2.1))
        (ind.enum.map (fun q => (p.2, q.2, entry A p.1 q.1)))
        = ind.map (fun b => (p.2, b)) := by
    intro p
    rw [List.map_map]
    show ind.enum.map ((fun b => (p.2, b)) ∘ Prod.snd) = _
    rw [← List.map_map, List.enum_map_snd]
  simp only [h1]
  rw [enum_flatMap_snd ind (fun a => ind.map (fun b => (a, b)))]
  rfl

/-! ## Pointwise characterisation of the reassembly operations -/

theorem length_reassemble {α : Type} [Zero α] [One α] (A : Mat α)
    (ids : List Nat) :
    (reassemble A ids).length = A.length + ids.length := by
  unfold reassemble
  rw [length_writes, List.length_replicate]

theorem rowlen_reassemble {α : Type} [Zero α] [One α] (A : Mat α)
    (ids : List Nat) {r : Nat} (hr : r < A.length + ids.length) :
    ((reassemble A ids).getD r []).length = A.length + ids.length := by
  unfold reassemble
  rw [rowlen_writes, getD_replicate_lt _ _ hr, List.length_replicate]

theorem diag_pos_nodup {α : Type} [One α] (ids : List Nat) (hnd : ids.Nodup) :
    ((ids.map (fun i => (i, i, (1 : α)))).map
      (fun w => (w.1, w.2.1))).Nodup := by
  rw [List.map_map]
  have hco : ((fun w : Nat × Nat × α => (w.1, w.2.1)) ∘
      (fun i => (i, i, (1 : α)))) = fun i : Nat => (i, i) := rfl
  rw [hco]
  exact hnd.map (fun a b h => by injection h)

/-- Position-list Nodup for the full write list of `reassemble`. -/
theorem reassemble_pos_nodup {α : Type} [Zero α] [One α] (A : Mat α)
    (ids : List Nat) (n : Nat) (hnd : ids.Nodup) :
    (((blockWrites A (idtokeep n ids)) ++
        ids.map (fun i => (i, i, (1 : α)))).map
      (fun w => (w.1, w.2.1))).Nodup := by
  rw [List.map_append, blockWrites_map_pos]
  refine List.Nodup.append
    ((idtokeep_nodup n ids).product (idtokeep_nodup n ids))
    (diag_pos_nodup ids hnd) ?_
  rw [List.disjoint_left]
  rintro ⟨a, b⟩ hp hp2
  rw [List.mem_product] at hp
  rw [List.map_map, List.mem_map] at hp2
  obtain ⟨i, hi, heq⟩ := hp2
  have ha : a = i := by
    have := congrArg Prod.fst heq
    simpa using this.symm
  exact (mem_idtokeep.mp hp.1).2 (ha ▸ hi)

/-- Entry characterisation of `reassemble`: `1` on the deleted diagonal,
`0` on every other position with a deleted index, and the entries of `A`
at the kept × kept positions. -/
theorem entry_reassemble {α : Type} [Zero α] [One α] (A : Mat α)
    (ids : List Nat) (hv : ValidIds (A.length + ids.length) ids)
    {r c : Nat} (hr : r < A.length + ids.length)
    (hc : c < A.length + ids.length) :
    entry (reassemble A ids) r c =
      if r ∈ ids then (if c = r then (1 : α) else 0)
      else if c ∈ ids then 0
      else entry A ((idtokeep (A.length + ids.length) ids).indexOf r)
        ((idtokeep (A.length + ids.length) ids).indexOf c) := by
  unfold reassemble
  have hbaseR : r < (List.replicate (A.length + ids.length)
      (List.replicate (A.length + ids.length) (0 : α))).length := by
    simpa using hr
  have hbaserow : c < ((List.replicate (A.length + ids.length)
      (List.replicate (A.length + ids.length) (0 : α))).getD r []).length := by
    rw [getD_replicate_lt _ _ hr, List.length_replicate]
    exact hc
  have hposnodup := reassemble_pos_nodup A ids (A.length + ids.length) hv.1
  by_cases hrids : r ∈ ids
  · rw [if_pos hrids]
    by_cases hcr : c = r
    · rw [if_pos hcr, hcr]
      exact entry_writes_of_mem _ _ hposnodup
        (List.mem_append_right _ (List.mem_map.mpr ⟨r, hrids, rfl⟩))
        hbaseR (by rw [getD_replicate_lt _ _ hr, List.length_replicate]; exact hr)
    · rw [if_neg hcr]
      have hnw : ∀ w ∈ blockWrites A (idtokeep (A.length + ids.length) ids) ++
          ids.map (fun i => (i, i, (1 : α))), ¬(w.1 = r ∧ w.2.1 = c) := by
        intro w hw hcon
        rcases List.mem_append.mp hw with hb | hd
        · have := (blockWrites_pos A _ hb).1
          rw [hcon.1] at this
          exact (mem_idtokeep.mp this).2 hrids
        · obtain ⟨i, _, rfl⟩ := List.mem_map.mp hd
          exact hcr (hcon.2 ▸ hcon.1 ▸ rfl)
      rw [entry_writes_of_notmem _ _ r c hnw]
      unfold entry
      rw [getD_replicate_lt _ _ hr, getD_replicate_lt _ _ hc]
  · rw [if_neg hrids]
    by_cases hcids : c ∈ ids
    · rw [if_pos hcids]
      have hnw : ∀ w ∈ blockWrites A (idtokeep (A.length + ids.length) ids) ++
          ids.map (fun i => (i, i, (1 : α))), ¬(w.1 = r ∧ w.2.1 = c) := by
        intro w hw hcon
        rcases List.mem_append.mp hw with hb | hd
        · have := (blockWrites_pos A _ hb).2
          rw [hcon.2] at this
          exact (mem_idtokeep.mp this).2 hcids
        · obtain ⟨i, hi, rfl⟩ := List.mem_map.mp hd
          exact hrids (hcon.1 ▸ hi)
      rw [entry_writes_of_notmem _ _ r c hnw]
      unfold entry
      rw [getD_replicate_lt _ _ hr, getD_replicate_lt _ _ hc]
    · rw [if_neg hcids]
      have hrind : r ∈ idtokeep (A.length + ids.length) ids :=
        mem_idtokeep.mpr ⟨hr, hrids⟩
      have hcind : c ∈ idtokeep (A.length + ids.length) ids :=
        mem_idtokeep.mpr ⟨hc, hcids⟩
      exact entry_writes_of_mem _ _ hposnodup
        (List.mem_append_left _ (blockWrites_mem_block A _ hrind hcind))
        hbaseR hbaserow

theorem length_eye {α : Type} [Zero α] [One α] (n : Nat) :
    (eye (α := α) n).length = n := by
  rw [eye, List.length_map, List.length_range]

theorem rowlen_eye {α : Type} [Zero α] [One α] {n r : Nat} (hr : r < n) :
    ((eye (α := α) n).getD r []).length = n := by
  rw [eye, getD_map_lt _ _ (by simpa using hr) [] 0, List.length_map,
    List.length_range]

theorem entry_eye {α : Type} [Zero α] [One α] {n r c : Nat} (hr : r < n)
    (hc : c < n) :
    entry (eye (α := α) n) r c = if c = r then (1 : α) else 0 := by
  unfold entry
  rw [eye, getD_map_lt _ _ (by simpa using hr) [] 0,
    getD_map_lt _ _ (by simpa using hc) 0 0,
    List.getD_eq_getElem _ _ (by simpa using hc), List.getElem_range,
    List.getD_eq_getElem _ _ (by simpa using hr), List.getElem_range]

/-- Entry characterisation of one slice of `reassemble_multi`: the block
write of `A` into the positions `ind × ind` on top of the identity. -/
theorem entry_eyeblock {α : Type} [Zero α] [One α] (A : Mat α)
    (ids : List Nat) (n : Nat) (_hv : ValidIds n ids) {r c : Nat}
    (hr : r < n) (hc : c < n) :
    entry (writes (eye n) (blockWrites A (idtokeep n ids))) r c =
      if r ∈ ids then (if c = r then (1 : α) else 0)
      else if c ∈ ids then 0
      else entry A ((idtokeep n ids).indexOf r)
        ((idtokeep n ids).indexOf c) := by
  have hposnodup : ((blockWrites A (idtokeep n ids)).map
      (fun w => (w.1, w.2.1))).Nodup := by
    rw [blockWrites_map_pos]
    exact (idtokeep_nodup n ids).product (idtokeep_nodup n ids)
  by_cases hrids : r ∈ ids
  · have hnw : ∀ w ∈ blockWrites A (idtokeep n ids),
        ¬(w.1 = r ∧ w.2.1 = c) := by
      intro w hw hcon
      have := (blockWrites_pos A _ hw).1
      rw [hcon.1] at this
      exact (mem_idtokeep.mp this).2 hrids
    rw [if_pos hrids, entry_writes_of_notmem _ _ r c hnw, entry_eye hr hc]
  · rw [if_neg hrids]
    by_cases hcids : c ∈ ids
    · have hnw : ∀ w ∈ blockWrites A (idtokeep n ids),
          ¬(w.1 = r ∧ w.2.1 = c) := by
        intro w hw hcon
        have := (blockWrites_pos A _ hw).2
        rw [hcon.2] at this
        exact (mem_idtokeep.mp this).2 hcids
      rw [if_pos hcids, entry_writes_of_notmem _ _ r c hnw, entry_eye hr hc,
        if_neg (by intro hcr; exact hrids (hcr ▸ hcids))]
    · rw [if_neg hcids]
      exact entry_writes_of_mem _ _ hposnodup
        (blockWrites_mem_block A _ (mem_idtokeep.mpr ⟨hr, hrids⟩)
          (mem_idtokeep.mpr ⟨hc, hcids⟩))
        (by rw [length_eye]; exact hr)
        (by rw [rowlen_eye hr]; exact hc)

theorem length_reassemble_vector {α : Type} [Zero α] (va : Vec α)
    (ids : List Nat) :
    (reassemble_vector va ids).length = va.length + ids.length := by
  unfold reassemble_vector
  rw [length_vwrites, List.length_replicate]

/-- Entry characterisation of `reassemble_vector`: `0` at the deleted
indices, and the entries of `va` at the ascending kept indices. -/
theorem getD_reassemble_vector {α : Type} [Zero α] (va : Vec α)
    (ids : List Nat) (_hv : ValidIds (va.length + ids.length) ids)
    {r : Nat} (hr : r < va.length + ids.length) :
    (reassemble_vector va ids).getD r 0 =
      if r ∈ ids then (0 : α)
      else va.getD ((idtokeep (va.length + ids.length) ids).indexOf r) 0 := by
  unfold reassemble_vector
  have hposnodup : (((idtokeep (va.length + ids.length) ids).enum.map
      (fun p => (p.2, va.getD p.1 0))).map Prod.fst).Nodup := by
    rw [List.map_map]
    show ((idtokeep (va.length + ids.length) ids).enum.map
      (fun p => p.2)).Nodup
    rw [enum_map_snd_fn _ (fun b => b), List.map_id']
    exact idtokeep_nodup _ _
  by_cases hrids : r ∈ ids
  · rw [if_pos hrids, getD_vwrites_of_notmem _ _ r 0 ?_,
      getD_replicate_lt _ _ hr]
    intro w hw hcon
    rw [List.mem_map] at hw
    obtain ⟨p, hp, rfl⟩ := hw
    rw [List.mem_enum_iff_getElem?] at hp
    have hmem2 : p.2 ∈ idtokeep (va.length + ids.length) ids :=
      List.getElem?_mem hp
    have hp2r : p.2 = r := hcon
    rw [hp2r] at hmem2
    exact (mem_idtokeep.mp hmem2).2 hrids
  · rw [if_neg hrids]
    have hrind : r ∈ idtokeep (va.length + ids.length) ids :=
      mem_idtokeep.mpr ⟨hr, hrids⟩
    refine getD_vwrites_of_mem _ _ 0 hposnodup ?_ (by simpa using hr)
    rw [List.mem_map]
    refine ⟨((idtokeep (va.length + ids.length) ids).indexOf r, r), ?_, rfl⟩
    rw [List.mem_enum_iff_getElem?,
      List.getElem?_eq_getElem (List.indexOf_lt_length.mpr hrind),
      List.getElem_indexOf]

/-! ## Extensionality and entry-map helpers -/

theorem vec_ext {α : Type} [Zero α] {v₁ v₂ : Vec α}
    (hlen : v₁.length = v₂.length)
    (hent : ∀ i, i < v₁.length → v₁.getD i 0 = v₂.getD i 0) : v₁ = v₂ := by
  apply List.ext_getElem hlen
  intro i h₁ h₂
  have := hent i h₁
  rwa [List.getD_eq_getElem _ _ h₁, List.getD_eq_getElem _ _ h₂] at this

theorem mat_ext {α : Type} [Zero α] {m₁ m₂ : Mat α}
    (hlen : m₁.length = m₂.length)
    (hrow : ∀ i, i < m₁.length →
      (m₁.getD i []).length = (m₂.getD i []).length)
    (hent : ∀ i j, i < m₁.length → j < (m₁.getD i []).length →
      entry m₁ i j = entry m₂ i j) : m₁ = m₂ := by
  apply List.ext_getElem hlen
  intro i h₁ h₂
  apply List.ext_getElem
  · have := hrow i h₁
    rwa [List.getD_eq_getElem _ _ h₁, List.getD_eq_getElem _ _ h₂] at this
  · intro j hj₁ hj₂
    have := hent i j h₁ (by rw [List.getD_eq_getElem _ _ h₁]; exact hj₁)
    unfold entry at this
    rwa [List.getD_eq_getElem _ _ h₁, List.getD_eq_getElem _ _ h₂,
      List.getD_eq_getElem _ _ hj₁, List.getD_eq_getElem _ _ hj₂] at this

theorem isSquare_iff {α : Type} (m : Mat α) (n : Nat) :
    IsSquare m n ↔ m.length = n ∧ ∀ i, i < n → (m.getD i []).length = n := by
  constructor
  · rintro ⟨hlen, hrow⟩
    refine ⟨hlen, fun i hi => hrow _ ?_⟩
    rw [List.getD_eq_getElem _ _ (by omega)]
    exact List.getElem_mem _
  · rintro ⟨hlen, hrow⟩
    refine ⟨hlen, fun r hr => ?_⟩
    obtain ⟨i, hi, rfl⟩ := List.mem_iff_getElem.mp hr
    rw [← List.getD_eq_getElem m [] hi]
    exact hrow i (by omega)

theorem entry_entryMap {α : Type} [Zero α] (m : Mat α)
    (rows cols : List Nat) {i j : Nat}
    (hi : i < rows.length) (hj : j < cols.length) :
    entry (rows.map (fun g => cols.map (fun g' => entry m g g'))) i j
      = entry m (rows.getD i 0) (cols.getD j 0) := by
  show ((rows.map (fun g => cols.map (fun g' => entry m g g'))).getD i
    []).getD j 0 = _
  rw [getD_map_lt _ rows hi [] 0, getD_map_lt _ cols hj 0 0]

theorem length_entryMap {α : Type} [Zero α] (m : Mat α)
    (rows cols : List Nat) :
    (rows.map (fun g => cols.map (fun g' => entry m g g'))).length
      = rows.length := List.length_map ..

theorem rowlen_entryMap {α : Type} [Zero α] (m : Mat α)
    (rows cols : List Nat) {r : List α}
    (hr : r ∈ rows.map (fun g => cols.map (fun g' => entry m g g'))) :
    r.length = cols.length := by
  obtain ⟨g, _, rfl⟩ := List.mem_map.mp hr
  exact List.length_map ..

theorem getD_rowlen_entryMap {α : Type} [Zero α] (m : Mat α)
    (rows cols : List Nat) {i : Nat} (hi : i < rows.length) :
    ((rows.map (fun g => cols.map (fun g' => entry m g g'))).getD i
      []).length = cols.length := by
  rw [getD_map_lt _ rows hi [] 0, List.length_map]

theorem filter_mem_perm {n : Nat} {ids : List Nat} (hv : ValidIds n ids) :
    ((List.range n).filter (fun i => i ∈ ids)).Perm ids := by
  rw [List.perm_ext_iff_of_nodup ((List.nodup_range n).filter _) hv.1]
  intro a
  simp only [List.mem_filter, List.mem_range, decide_eq_true_eq]
  exact ⟨fun hx => hx.2, fun hx => ⟨hv.2 a hx, hx⟩⟩

theorem ids_length_le {n : Nat} {ids : List Nat} (hv : ValidIds n ids) :
    ids.length ≤ n := by
  have h := (filter_mem_perm hv).length_eq
  have h2 := List.length_filter_le (fun i => decide (i ∈ ids)) (List.range n)
  rw [List.length_range] at h2
  omega

theorem getD_idtokeep_mem {n : Nat} {ids : List Nat} {i : Nat}
    (hi : i < (idtokeep n ids).length) :
    (idtokeep n ids).getD i 0 ∈ idtokeep n ids := by
  rw [List.getD_eq_getElem _ _ hi]
  exact List.getElem_mem _

theorem getD_indexOf_idtokeep {n : Nat} {ids : List Nat} {r : Nat}
    (hr : r ∈ idtokeep n ids) :
    (idtokeep n ids).getD ((idtokeep n ids).indexOf r) 0 = r := by
  rw [List.getD_eq_getElem _ _ (List.indexOf_lt_length.mpr hr),
    List.getElem_indexOf]

/-! ## Congruence of the primitives in the index list -/

theorem deleteFrom_congr {β : Type} {ids ids' : List Nat}
    (h : ∀ i, i ∈ ids ↔ i ∈ ids') :
    ∀ (k : Nat) (xs : List β), deleteFrom k xs ids = deleteFrom k xs ids' := by
  intro k xs
  induction xs generalizing k with
  | nil => rfl
  | cons x t ih =>
    by_cases hk : k ∈ ids
    · simp only [deleteFrom, if_pos hk, if_pos ((h k).mp hk)]
      exact ih (k + 1)
    · simp only [deleteFrom, if_neg hk, if_neg (fun hc => hk ((h k).mpr hc))]
      rw [ih (k + 1)]

theorem npDelete_congr {β : Type} {ids ids' : List Nat}
    (h : ∀ i, i ∈ ids ↔ i ∈ ids') (xs : List β) :
    npDelete xs ids = npDelete xs ids' :=
  deleteFrom_congr h 0 xs

theorem idtokeep_congr {ids ids' : List Nat}
    (h : ∀ i, i ∈ ids ↔ i ∈ ids') (n : Nat) :
    idtokeep n ids = idtokeep n ids' := by
  unfold idtokeep
  exact List.filter_congr (fun a _ => by simp [h a])

/-! ## Further consequences used by the claims -/

theorem mem_of_full {n : Nat} {ids : List Nat} (hv : ValidIds n ids)
    (hlen : ids.length = n) {r : Nat} (hr : r < n) : r ∈ ids := by
  by_contra hrn
  have hmem : r ∈ idtokeep n ids := mem_idtokeep.mpr ⟨hr, hrn⟩
  have hk : (idtokeep n ids).length = 0 := by
    rw [length_idtokeep hv, hlen]
    omega
  rw [List.eq_nil_of_length_eq_zero hk] at hmem
  cases hmem

theorem entryMap_range {α : Type} [Zero α] {m : Mat α} {n : Nat}
    (hm : IsSquare m n) :
    (List.range n).map (fun gi => (List.range n).map (fun gj => entry m gi gj))
      = m := by
  obtain ⟨hlen, hrow⟩ := (isSquare_iff m n).mp hm
  have hrange : ∀ i : Nat, i < n → (List.range n).getD i 0 = i := by
    intro i hi
    rw [List.getD_eq_getElem _ _ (by simpa using hi), List.getElem_range]
  apply mat_ext
  · rw [List.length_map, List.length_range, hlen]
  · intro i hi
    rw [List.length_map, List.length_range] at hi
    rw [getD_map_lt _ _ (by simpa using hi) [] 0, List.length_map,
      List.length_range, hrow i hi]
  · intro i j hi hj
    rw [List.length_map, List.length_range] at hi
    rw [getD_map_lt _ _ (by simpa using hi) [] 0, List.length_map,
      List.length_range] at hj
    rw [entry_entryMap m _ _ (by simpa using hi) (by simpa using hj),
      hrange i hi, hrange j hj]

/-- One slice of `reassemble_multi`, as a block write on the identity. -/
theorem reassemble_multi_slice {α : Type} [Zero α] [One α]
    (As : List (Mat α)) (ids : List Nat) {s : Nat} (hs : s < As.length) :
    (reassemble_multi As ids).getD s []
      = writes (eye ((As.getD 0 []).length + ids.length))
          (blockWrites (As.getD s [])
            (idtokeep ((As.getD 0 []).length + ids.length) ids)) := by
  show (As.map _).getD s [] = _
  rw [getD_map_lt _ As hs [] []]

/-- A slice of `reassemble_multi` on a rectangular, valid batch equals
`reassemble` of the slice. -/
theorem reassemble_multi_eq_single {α : Type} [Zero α] [One α]
    (As : List (Mat α)) (ids : List Nat) {s : Nat} (hs : s < As.length)
    (hrect : (As.getD s []).length = (As.getD 0 []).length)
    (hv : ValidIds ((As.getD 0 []).length + ids.length) ids) :
    (reassemble_multi As ids).getD s [] = reassemble (As.getD s []) ids := by
  have hnt : (As.getD s []).length + ids.length
      = (As.getD 0 []).length + ids.length := by rw [hrect]
  have hv' : ValidIds ((As.getD s []).length + ids.length) ids := by
    rw [hnt]
    exact hv
  rw [reassemble_multi_slice As ids hs]
  apply mat_ext
  · rw [length_writes, length_eye, length_reassemble, hnt]
  · intro i hi
    rw [length_writes, length_eye] at hi
    rw [rowlen_writes, rowlen_eye hi,
      rowlen_reassemble _ _ (by rw [hnt]; exact hi), hnt]
  · intro i j hi hj
    rw [length_writes, length_eye] at hi
    rw [rowlen_writes, rowlen_eye hi] at hj
    rw [entry_eyeblock (As.getD s []) ids _ hv hi hj,
      entry_reassemble (As.getD s []) ids hv' (by rw [hnt]; exact hi)
        (by rw [hnt]; exact hj), hnt]

theorem eq_singleton_of_getD {β : Type} {l : List β} {x : β} (d : β)
    (hlen : l.length = 1) (hx : l.getD 0 d = x) : l = [x] := by
  obtain ⟨a, rfl⟩ := List.length_eq_one.mp hlen
  rw [← hx]
  rfl

/-! ## The claims -/

/-- C1: on an `n×n` matrix `m` with `k` distinct in-range indices,
`chop_in_blocks` returns `A` of size `(n-k)×(n-k)` equal to `m` with the
`idtodelete` rows and columns removed (kept indices in ascending order),
`B` of size `(n-k)×k` holding the kept rows of the `idtodelete` columns,
and `C` of size `k×k` with `C[i,j] = m[idtodelete[i], idtodelete[j]]` in
the insertion order of `idtodelete`; in particular
`m = [[1,2,3],[2,4,5],[3,5,6]]` and `idtodelete = [1]` give
`A = [[1,3],[3,6]]`, `B = [[2],[5]]`, `C = [[4]]`. -/
theorem claim_C1 :
    (∀ (α : Type) [Zero α] (m : Mat α) (n : Nat) (ids : List Nat),
      IsSquare m n → ValidIds n ids →
      ((idtokeep n ids).Pairwise (· < ·) ∧
       (∀ i, i ∈ idtokeep n ids ↔ i < n ∧ i ∉ ids) ∧
       (idtokeep n ids).length = n - ids.length ∧
       (chop_in_blocks m ids).1.length = n - ids.length ∧
       (∀ r ∈ (chop_in_blocks m ids).1, r.length = n - ids.length) ∧
       (∀ i j, i < n - ids.length → j < n - ids.length →
         entry (chop_in_blocks m ids).1 i j
           = entry m ((idtokeep n ids).getD i 0) ((idtokeep n ids).getD j 0)) ∧
       (chop_in_blocks m ids).2.1.length = n - ids.length ∧
       (∀ r ∈ (chop_in_blocks m ids).2.1, r.length = ids.length) ∧
       (∀ i j, i < n - ids.length → j < ids.length →
         entry (chop_in_blocks m ids).2.1 i j
           = entry m ((idtokeep n ids).getD i 0) (ids.getD j 0)) ∧
       (chop_in_blocks m ids).2.2.length = ids.length ∧
       (∀ r ∈ (chop_in_blocks m ids).2.2, r.length = ids.length) ∧
       (∀ i j, i < ids.length → j < ids.length →
         entry (chop_in_blocks m ids).2.2 i j
           = entry m (ids.getD i 0) (ids.getD j 0)))) ∧
    chop_in_blocks ([[1,2,3],[2,4,5],[3,5,6]] : Mat ℤ) [1]
      = ([[1,3],[3,6]], [[2],[5]], [[4]]) := by
  constructor
  · intro α _ m n ids hm hv
    have he := chop_in_blocks_eq hm ids
    have hA : (chop_in_blocks m ids).1
        = (idtokeep n ids).map (fun g => (idtokeep n ids).map
            (fun g' => entry m g g')) := by rw [he]
    have hB : (chop_in_blocks m ids).2.1
        = (idtokeep n ids).map (fun g => ids.map (fun g' => entry m g g')) := by
      rw [he]
    have hC : (chop_in_blocks m ids).2.2
        = ids.map (fun g => ids.map (fun g' => entry m g g')) := by rw [he]
    have hk := length_idtokeep hv
    refine ⟨idtokeep_sorted n ids, fun i => mem_idtokeep, hk,
      ?_, ?_, ?_, ?_, ?_, ?_, ?_, ?_, ?_⟩
    · rw [hA, length_entryMap, hk]
    · intro r hr
      rw [hA] at hr
      rw [rowlen_entryMap m _ _ hr, hk]
    · intro i j hi hj
      rw [hA]
      exact entry_entryMap m _ _ (by rw [hk]; exact hi) (by rw [hk]; exact hj)
    · rw [hB, length_entryMap, hk]
    · intro r hr
      rw [hB] at hr
      exact rowlen_entryMap m _ _ hr
    · intro i j hi hj
      rw [hB]
      exact entry_entryMap m _ _ (by rw [hk]; exact hi) hj
    · rw [hC, length_entryMap]
    · intro r hr
      rw [hC] at hr
      exact rowlen_entryMap m _ _ hr
    · intro i j hi hj
      rw [hC]
      exact entry_entryMap m _ _ hi hj
  · decide

theorem claim_C1_witness :
    IsSquare ([[1,2,3],[2,4,5],[3,5,6]] : Mat ℤ) 3 ∧ ValidIds 3 [1] ∧
      entry (chop_in_blocks ([[1,2,3],[2,4,5],[3,5,6]] : Mat ℤ) [1]).1 0 1
        = entry ([[1,2,3],[2,4,5],[3,5,6]] : Mat ℤ)
            ((idtokeep 3 [1]).getD 0 0) ((idtokeep 3 [1]).getD 1 0) := by
  refine ⟨by decide, by decide, ?_⟩
  exact (claim_C1.1 ℤ [[1,2,3],[2,4,5],[3,5,6]] 3 [1] (by decide)
    (by decide)).2.2.2.2.2.1 0 1 (by decide) (by decide)

/-- C5 counterexample: for the batch `[[[1,2],[2,4]]]` with
`idtodelete = [0]`, the batched `B` block is `[[[2]]]` — the
`idtodelete` rows are removed from it, it is not the full-rows ×
removed-columns slice `[[[1],[2]]]`, and it coincides with the
single-matrix `B` block of the slice. -/
theorem claim_C5_counterexample :
    (chop_in_blocks_multi ([[[1,2],[2,4]]] : List (Mat ℤ)) [0]).2.1
        = [[[2]]] ∧
      ([[[2]]] : List (Mat ℤ)) ≠ [[[1],[2]]] ∧
      (chop_in_blocks_multi ([[[1,2],[2,4]]] : List (Mat ℤ)) [0]).2.1
        = [(chop_in_blocks ([[1,2],[2,4]] : Mat ℤ) [0]).2.1] := by
  decide

/-- C5 (amended): every slice of the `B` block of `chop_in_blocks_multi`
equals the `B` block of `chop_in_blocks` on that slice: in both variants
the `idtodelete` rows are removed, so the single/batched `B` blocks
coincide and carry the same kept-rows × deleted-columns contract. -/
theorem claim_C5 :
    ∀ (α : Type) [Zero α] (ms : List (Mat α)) (ids : List Nat) (s : Nat),
      s < ms.length →
      (chop_in_blocks_multi ms ids).2.1.getD s []
        = (chop_in_blocks (ms.getD s []) ids).2.1 := by
  intro α _ ms ids s hs
  show (ms.map (fun m => npDelete (m.map (fun r => selectD r 0 ids)) ids)).getD
      s [] = _
  rw [getD_map_lt _ ms hs [] []]
  rfl

theorem claim_C5_witness :
    0 < ([[[1,2],[2,4]]] : List (Mat ℤ)).length ∧
      (chop_in_blocks_multi ([[[1,2],[2,4]]] : List (Mat ℤ)) [0]).2.1.getD 0 []
        = (chop_in_blocks (([[[1,2],[2,4]]] : List (Mat ℤ)).getD 0 []) [0]).2.1 :=
  ⟨by decide, claim_C5 ℤ [[[1,2],[2,4]]] [0] 0 (by decide)⟩

/-- C6: `chop_in_blocks_vector` returns `va` = the entries of `v` at the
complement of `idtodelete` in ascending numeric order and `vb` = the
entries at `idtodelete` in its given order; the batched variant does the
same per slice; in particular `v = [10,20,30,40]`, `idtodelete = [0,2]`
give `va = [20,40]`, `vb = [10,30]`. -/
theorem claim_C6 :
    (∀ (α : Type) [Zero α] (v : Vec α) (ids : List Nat),
      ValidIds v.length ids →
      ((chop_in_blocks_vector v ids).1.length = v.length - ids.length ∧
       (∀ i, i < v.length - ids.length →
         (chop_in_blocks_vector v ids).1.getD i 0
           = v.getD ((idtokeep v.length ids).getD i 0) 0) ∧
       (idtokeep v.length ids).Pairwise (· < ·) ∧
       (∀ i, i ∈ idtokeep v.length ids ↔ i < v.length ∧ i ∉ ids) ∧
       (chop_in_blocks_vector v ids).2.length = ids.length ∧
       (∀ j, j < ids.length →
         (chop_in_blocks_vector v ids).2.getD j 0
           = v.getD (ids.getD j 0) 0))) ∧
    (∀ (α : Type) [Zero α] (vs : List (Vec α)) (ids : List Nat) (s : Nat),
      s < vs.length → (vs.getD s []).length = (vs.getD 0 []).length →
      ((chop_in_blocks_vector_multi vs ids).1.getD s []
          = (chop_in_blocks_vector (vs.getD s []) ids).1 ∧
       (chop_in_blocks_vector_multi vs ids).2.getD s []
          = (chop_in_blocks_vector (vs.getD s []) ids).2)) ∧
    chop_in_blocks_vector ([10,20,30,40] : Vec ℤ) [0,2] = ([20,40], [10,30]) := by
  refine ⟨?_, ?_, by decide⟩
  · intro α _ v ids hv
    have hk := length_idtokeep hv
    refine ⟨?_, ?_, idtokeep_sorted _ _, fun i => mem_idtokeep, ?_, ?_⟩
    · show (selectD v 0 (idtokeep v.length ids)).length = _
      rw [selectD, List.length_map, hk]
    · intro i hi
      show ((idtokeep v.length ids).map (fun g => v.getD g 0)).getD i 0 = _
      rw [getD_map_lt _ _ (by rw [hk]; exact hi) 0 0]
    · show (ids.map (fun g => v.getD g 0)).length = _
      rw [List.length_map]
    · intro j hj
      show (ids.map (fun g => v.getD g 0)).getD j 0 = _
      rw [getD_map_lt _ _ hj 0 0]
  · intro α _ vs ids s hs hlen
    constructor
    · show (vs.map (fun v => selectD v 0
        (idtokeep (vs.getD 0 []).length ids))).getD s [] = _
      rw [getD_map_lt _ vs hs [] []]
      show selectD (vs.getD s []) 0 (idtokeep (vs.getD 0 []).length ids)
        = selectD (vs.getD s []) 0 (idtokeep (vs.getD s []).length ids)
      rw [hlen]
    · show (vs.map (fun v => selectD v 0 ids)).getD s [] = _
      rw [getD_map_lt _ vs hs [] []]
      rfl

theorem claim_C6_witness :
    ValidIds ([10,20,30,40] : Vec ℤ).length [0,2] ∧
      (chop_in_blocks_vector ([10,20,30,40] : Vec ℤ) [0,2]).1.getD 0 0
        = ([10,20,30,40] : Vec ℤ).getD ((idtokeep 4 [0,2]).getD 0 0) 0 := by
  refine ⟨by decide, ?_⟩
  exact (claim_C6.1 ℤ [10,20,30,40] [0,2] (by decide)).2.1 0 (by decide)

/-- C7 counterexample: a duplicated `idtodelete` is not rejected — the
partition operations return ordinary results on it (`np.delete`
collapses the duplicates, fancy indexing repeats them), so no
`InvalidIndex` failure happens. -/
theorem claim_C7_counterexample :
    chop_in_blocks ([[1,2],[2,4]] : Mat ℤ) [0,0]
        = ([[4]], [[2,2]], [[1,1],[1,1]]) ∧
      chop_in_blocks_vector ([10,20] : Vec ℤ) [0,0] = ([20], [10,10]) := by
  decide

/-- C7 (amended): the partitioning code performs no eager validation:
duplicated entries of `idtodelete` are silently collapsed by the
deletions — the `A` block and `va` equal those of the deduplicated index
list — while the selected blocks repeat them; only an out-of-range entry
makes the underlying numpy call itself raise (an `IndexError`, not a
pre-allocation `InvalidIndex` check). -/
theorem claim_C7 :
    ∀ (α : Type) [Zero α] (m : Mat α) (v : Vec α) (ids : List Nat),
      (chop_in_blocks m ids).1 = (chop_in_blocks m ids.dedup).1 ∧
      (chop_in_blocks_vector v ids).1
        = (chop_in_blocks_vector v ids.dedup).1 := by
  intro α _ m v ids
  have hdd : ∀ i : Nat, i ∈ ids ↔ i ∈ ids.dedup :=
    fun i => (List.mem_dedup).symm
  have hnp : ∀ (β : Type) (xs : List β),
      npDelete xs ids = npDelete xs ids.dedup :=
    fun β xs => npDelete_congr hdd xs
  constructor
  · show (npDelete m ids).map (fun r => npDelete r ids)
      = (npDelete m ids.dedup).map (fun r => npDelete r ids.dedup)
    simp only [hnp]
  · show selectD v 0 (idtokeep v.length ids)
      = selectD v 0 (idtokeep v.length ids.dedup)
    rw [idtokeep_congr hdd]

/-- C8 counterexample: for `m = [[1,2],[2,4]]` and the full but permuted
`idtodelete = [1,0]`, the `C` block is `m` with both axes permuted by
`idtodelete`, not `m` itself. -/
theorem claim_C8_counterexample :
    chop_in_blocks ([[1,2],[2,4]] : Mat ℤ) [1,0] = ([], [], [[4,2],[2,1]]) ∧
      ([[4,2],[2,1]] : Mat ℤ) ≠ [[1,2],[2,4]] := by
  decide

/-- C8 (amended): when `idtodelete` covers all `n` indices,
`chop_in_blocks` returns empty `A` and `B` and
`C[i,j] = m[idtodelete[i], idtodelete[j]]` — so `C = m` exactly when
`idtodelete` is the ascending enumeration `0, …, n-1` — and `reassemble`
of an empty `A` returns the `n×n` identity. -/
theorem claim_C8 :
    ∀ (α : Type) [Zero α] [One α] (m : Mat α) (n : Nat) (ids : List Nat),
      IsSquare m n → ValidIds n ids → ids.length = n →
      ((chop_in_blocks m ids).1 = [] ∧
       (chop_in_blocks m ids).2.1 = [] ∧
       (chop_in_blocks m ids).2.2
         = ids.map (fun gi => ids.map (fun gj => entry m gi gj)) ∧
       (ids = List.range n → (chop_in_blocks m ids).2.2 = m) ∧
       reassemble ([] : Mat α) ids = eye n) := by
  intro α _ _ m n ids hm hv hlen
  have he := chop_in_blocks_eq hm ids
  have hknil : idtokeep n ids = [] := by
    apply List.eq_nil_of_length_eq_zero
    rw [length_idtokeep hv, hlen]
    omega
  refine ⟨?_, ?_, ?_, ?_, ?_⟩
  · rw [he, hknil]
    rfl
  · rw [he, hknil]
    rfl
  · rw [he]
  · intro hr
    rw [he]
    show ids.map (fun gi => ids.map (fun gj => entry m gi gj)) = m
    rw [hr]
    exact entryMap_range hm
  · have hvn : ValidIds (([] : Mat α).length + ids.length) ids := by
      simpa [hlen] using hv
    have hnt : ([] : Mat α).length + ids.length = n := by
      simp [hlen]
    apply mat_ext
    · rw [length_reassemble, hnt, length_eye]
    · intro i hi
      rw [length_reassemble, hnt] at hi
      rw [rowlen_reassemble _ _ (by rw [hnt]; exact hi), hnt, rowlen_eye hi]
    · intro i j hi hj
      rw [length_reassemble, hnt] at hi
      rw [rowlen_reassemble _ _ (by rw [hnt]; exact hi), hnt] at hj
      have hii : i ∈ ids := mem_of_full hv hlen hi
      rw [entry_reassemble ([] : Mat α) ids hvn (by rw [hnt]; exact hi)
        (by rw [hnt]; exact hj), if_pos hii, entry_eye hi hj]

theorem claim_C8_witness :
    IsSquare ([[1,2],[2,4]] : Mat ℤ) 2 ∧ ValidIds 2 [1,0] ∧
      ([1,0] : List Nat).length = 2 ∧
      reassemble ([] : Mat ℤ) [1,0] = eye 2 := by
  refine ⟨by decide, by decide, by decide, ?_⟩
  exact (claim_C8 ℤ [[1,2],[2,4]] 2 [1,0] (by decide) (by decide)
    (by decide)).2.2.2.2

/-- C3: `reassemble` (and every slice of `reassemble_multi`) has exactly
`1` on every diagonal position whose index is in `idtodelete`, and
exactly `0` at every off-diagonal position with at least one index in
`idtodelete`, regardless of the contents of `A`. -/
theorem claim_C3 :
    (∀ (α : Type) [Zero α] [One α] (A : Mat α) (ids : List Nat),
      ValidIds (A.length + ids.length) ids →
      ((∀ i ∈ ids, entry (reassemble A ids) i i = 1) ∧
       (∀ r c, r < A.length + ids.length → c < A.length + ids.length →
         r ≠ c → (r ∈ ids ∨ c ∈ ids) → entry (reassemble A ids) r c = 0))) ∧
    (∀ (α : Type) [Zero α] [One α] (As : List (Mat α)) (ids : List Nat)
      (s : Nat), s < As.length →
      ValidIds ((As.getD 0 []).length + ids.length) ids →
      ((∀ i ∈ ids, entry ((reassemble_multi As ids).getD s []) i i = 1) ∧
       (∀ r c, r < (As.getD 0 []).length + ids.length →
         c < (As.getD 0 []).length + ids.length → r ≠ c →
         (r ∈ ids ∨ c ∈ ids) →
         entry ((reassemble_multi As ids).getD s []) r c = 0))) := by
  constructor
  · intro α _ _ A ids hv
    constructor
    · intro i hi
      have hilt : i < A.length + ids.length := hv.2 i hi
      rw [entry_reassemble A ids hv hilt hilt, if_pos hi, if_pos rfl]
    · intro r c hr hc hne hmem
      rw [entry_reassemble A ids hv hr hc]
      by_cases hrids : r ∈ ids
      · rw [if_pos hrids, if_neg (fun h => hne h.symm)]
      · rw [if_neg hrids, if_pos (hmem.resolve_left hrids)]
  · intro α _ _ As ids s hs hv
    constructor
    · intro i hi
      have hilt : i < (As.getD 0 []).length + ids.length := hv.2 i hi
      rw [reassemble_multi_slice As ids hs,
        entry_eyeblock (As.getD s []) ids _ hv hilt hilt, if_pos hi,
        if_pos rfl]
    · intro r c hr hc hne hmem
      rw [reassemble_multi_slice As ids hs,
        entry_eyeblock (As.getD s []) ids _ hv hr hc]
      by_cases hrids : r ∈ ids
      · rw [if_pos hrids, if_neg (fun h => hne h.symm)]
      · rw [if_neg hrids, if_pos (hmem.resolve_left hrids)]

theorem claim_C3_witness :
    ValidIds (([[5]] : Mat ℤ).length + ([1] : List Nat).length) [1] ∧
      entry (reassemble ([[5]] : Mat ℤ) [1]) 1 1 = 1 ∧
      entry (reassemble ([[5]] : Mat ℤ) [1]) 0 1 = 0 := by
  refine ⟨by decide, ?_, ?_⟩
  · exact (claim_C3.1 ℤ [[5]] [1] (by decide)).1 1 (by decide)
  · exact (claim_C3.1 ℤ [[5]] [1] (by decide)).2 0 1 (by decide) (by decide)
      (by decide) (by decide)

/-- C4 counterexample: reassembling the kept block does not restore the
original object: for the symmetric `m = [[1,2],[2,4]]` with
`idtodelete = [1]` the round trip yields `[[1,0],[0,1]] ≠ m`, and for
`v = [10,20,30,40]` with `idtodelete = [0,2]` it yields
`[0,20,0,40] ≠ v`. -/
theorem claim_C4_counterexample :
    reassemble ((chop_in_blocks ([[1,2],[2,4]] : Mat ℤ) [1]).1) [1]
        ≠ [[1,2],[2,4]] ∧
      reassemble_vector
          ((chop_in_blocks_vector ([10,20,30,40] : Vec ℤ) [0,2]).1) [0,2]
        ≠ [10,20,30,40] := by
  decide

/-- C4 (amended): the round trip restores the original exactly when the
original already carries the fill convention — `1` on every deleted
diagonal entry and `0` on every other position with a deleted index for
a matrix, `0` at every deleted position for a vector. -/
theorem claim_C4 :
    (∀ (α : Type) [Zero α] [One α] (m : Mat α) (n : Nat) (ids : List Nat),
      IsSquare m n → ValidIds n ids →
      (∀ i ∈ ids, entry m i i = 1) →
      (∀ r, r < n → ∀ c, c < n → r ≠ c → (r ∈ ids ∨ c ∈ ids) →
        entry m r c = 0) →
      reassemble (chop_in_blocks m ids).1 ids = m) ∧
    (∀ (α : Type) [Zero α] (v : Vec α) (ids : List Nat),
      ValidIds v.length ids → (∀ i ∈ ids, v.getD i 0 = 0) →
      reassemble_vector (chop_in_blocks_vector v ids).1 ids = v) := by
  constructor
  · intro α _ _ m n ids hm hv hdiag hcross
    have hml := hm.1
    have hrow := ((isSquare_iff m n).mp hm).2
    have he := chop_in_blocks_eq hm ids
    have hA : (chop_in_blocks m ids).1
        = (idtokeep n ids).map (fun g => (idtokeep n ids).map
            (fun g' => entry m g g')) := by rw [he]
    have hk := length_idtokeep hv
    have hkle := ids_length_le hv
    have hAlen : (chop_in_blocks m ids).1.length = n - ids.length := by
      rw [hA, length_entryMap, hk]
    have hnt : (chop_in_blocks m ids).1.length + ids.length = n := by omega
    have hv' : ValidIds ((chop_in_blocks m ids).1.length + ids.length) ids := by
      rw [hnt]
      exact hv
    apply mat_ext
    · rw [length_reassemble, hnt, hml]
    · intro i hi
      rw [length_reassemble, hnt] at hi
      rw [rowlen_reassemble _ _ (by rw [hnt]; exact hi), hnt, hrow i hi]
    · intro i j hi hj
      rw [length_reassemble, hnt] at hi
      rw [rowlen_reassemble _ _ (by rw [hnt]; exact hi), hnt] at hj
      rw [entry_reassemble _ ids hv' (by rw [hnt]; exact hi)
        (by rw [hnt]; exact hj), hnt]
      by_cases hii : i ∈ ids
      · rw [if_pos hii]
        by_cases hji : j = i
        · rw [if_pos hji, hji]
          exact (hdiag i hii).symm
        · rw [if_neg hji]
          exact (hcross i hi j hj (fun h => hji h.symm) (Or.inl hii)).symm
      · rw [if_neg hii]
        by_cases hjj : j ∈ ids
        · rw [if_pos hjj]
          refine (hcross i hi j hj ?_ (Or.inr hjj)).symm
          intro h
          exact hii (by rw [h]; exact hjj)
        · rw [if_neg hjj]
          have hik : i ∈ idtokeep n ids := mem_idtokeep.mpr ⟨hi, hii⟩
          have hjk : j ∈ idtokeep n ids := mem_idtokeep.mpr ⟨hj, hjj⟩
          rw [hA, entry_entryMap m _ _ (List.indexOf_lt_length.mpr hik)
            (List.indexOf_lt_length.mpr hjk), getD_indexOf_idtokeep hik,
            getD_indexOf_idtokeep hjk]
  · intro α _ v ids hv hzero
    have hk := length_idtokeep hv
    have hkle := ids_length_le hv
    have hvaeq : (chop_in_blocks_vector v ids).1
        = (idtokeep v.length ids).map (fun g => v.getD g 0) := rfl
    have hvalen : (chop_in_blocks_vector v ids).1.length
        = v.length - ids.length := by
      rw [hvaeq, List.length_map, hk]
    have hnt : (chop_in_blocks_vector v ids).1.length + ids.length
        = v.length := by omega
    have hv' : ValidIds ((chop_in_blocks_vector v ids).1.length + ids.length)
        ids := by
      rw [hnt]
      exact hv
    apply vec_ext
    · rw [length_reassemble_vector, hnt]
    · intro i hi
      rw [length_reassemble_vector, hnt] at hi
      rw [getD_reassemble_vector _ ids hv' (by rw [hnt]; exact hi), hnt]
      by_cases hii : i ∈ ids
      · rw [if_pos hii]
        exact (hzero i hii).symm
      · rw [if_neg hii]
        have hik : i ∈ idtokeep v.length ids := mem_idtokeep.mpr ⟨hi, hii⟩
        rw [hvaeq, getD_map_lt _ _ (List.indexOf_lt_length.mpr hik) 0 0,
          getD_indexOf_idtokeep hik]

theorem claim_C4_witness :
    IsSquare ([[1,0,3],[0,1,0],[3,0,6]] : Mat ℤ) 3 ∧ ValidIds 3 [1] ∧
      reassemble
          ((chop_in_blocks ([[1,0,3],[0,1,0],[3,0,6]] : Mat ℤ) [1]).1) [1]
        = [[1,0,3],[0,1,0],[3,0,6]] := by
  refine ⟨by decide, by decide, ?_⟩
  exact claim_C4.1 ℤ [[1,0,3],[0,1,0],[3,0,6]] 3 [1] (by decide) (by decide)
    (by decide)
    (by intro r hr c hc hne hmem
        interval_cases r <;> interval_cases c <;> revert hne hmem <;> decide)

/-- C10: chopping a reassembled matrix recovers the inputs exactly:
`A` itself as the first block, an all-zero `(n-k)×k` second block, and
the `k×k` identity as the third block. -/
theorem claim_C10 :
    ∀ (α : Type) [Zero α] [One α] (A : Mat α) (ids : List Nat),
      IsSquare A A.length → ValidIds (A.length + ids.length) ids →
      chop_in_blocks (reassemble A ids) ids
        = (A, List.replicate A.length (List.replicate ids.length (0 : α)),
           eye ids.length) := by
  intro α _ _ A ids hA hv
  have hArow := ((isSquare_iff A A.length).mp hA).2
  have hRsq : IsSquare (reassemble A ids) (A.length + ids.length) :=
    (isSquare_iff _ _).mpr ⟨length_reassemble A ids,
      fun i hi => rowlen_reassemble A ids hi⟩
  have he := chop_in_blocks_eq hRsq ids
  have hk := length_idtokeep hv
  have hkA : (idtokeep (A.length + ids.length) ids).length = A.length := by
    rw [hk]
    omega
  have hidx : ∀ {i : Nat}, i < A.length →
      (idtokeep (A.length + ids.length) ids).indexOf
        ((idtokeep (A.length + ids.length) ids).getD i 0) = i := by
    intro i hi
    have hi' : i < (idtokeep (A.length + ids.length) ids).length := by
      rw [hkA]
      exact hi
    rw [List.getD_eq_getElem _ _ hi']
    have := List.get_indexOf (idtokeep_nodup _ _) ⟨i, hi'⟩
    simpa using this
  have hkeptmem : ∀ {i : Nat}, i < A.length →
      ((idtokeep (A.length + ids.length) ids).getD i 0 < A.length + ids.length
        ∧ (idtokeep (A.length + ids.length) ids).getD i 0 ∉ ids) := by
    intro i hi
    exact mem_idtokeep.mp (getD_idtokeep_mem (by rw [hkA]; exact hi))
  have hidsmem : ∀ {j : Nat}, j < ids.length → ids.getD j 0 ∈ ids := by
    intro j hj
    rw [List.getD_eq_getElem _ _ hj]
    exact List.getElem_mem _
  rw [he, Prod.mk.injEq, Prod.mk.injEq]
  refine ⟨?_, ?_, ?_⟩
  · apply mat_ext
    · rw [length_entryMap, hkA]
    · intro i hi
      rw [length_entryMap, hkA] at hi
      rw [getD_rowlen_entryMap _ _ _ (by rw [hkA]; exact hi), hkA, hArow i hi]
    · intro i j hi hj
      rw [length_entryMap, hkA] at hi
      rw [getD_rowlen_entryMap _ _ _ (by rw [hkA]; exact hi), hkA] at hj
      rw [entry_entryMap _ _ _ (by rw [hkA]; exact hi) (by rw [hkA]; exact hj)]
      obtain ⟨hglt, hgnot⟩ := hkeptmem hi
      obtain ⟨hhlt, hhnot⟩ := hkeptmem hj
      rw [entry_reassemble A ids hv hglt hhlt, if_neg hgnot, if_neg hhnot,
        hidx hi, hidx hj]
  · apply mat_ext
    · rw [length_entryMap, hkA, List.length_replicate]
    · intro i hi
      rw [length_entryMap, hkA] at hi
      rw [getD_rowlen_entryMap _ _ _ (by rw [hkA]; exact hi),
        getD_replicate_lt _ _ hi, List.length_replicate]
    · intro i j hi hj
      rw [length_entryMap, hkA] at hi
      rw [getD_rowlen_entryMap _ _ _ (by rw [hkA]; exact hi)] at hj
      rw [entry_entryMap _ _ _ (by rw [hkA]; exact hi) hj]
      obtain ⟨hglt, hgnot⟩ := hkeptmem hi
      have hjmem := hidsmem hj
      have hjlt : ids.getD j 0 < A.length + ids.length := hv.2 _ hjmem
      rw [entry_reassemble A ids hv hglt hjlt, if_neg hgnot, if_pos hjmem]
      show (0 : α)
        = entry (List.replicate A.length
            (List.replicate ids.length (0 : α))) i j
      unfold entry
      rw [getD_replicate_lt _ _ hi, getD_replicate_lt _ _ hj]
  · apply mat_ext
    · rw [length_entryMap, length_eye]
    · intro i hi
      rw [length_entryMap] at hi
      rw [getD_rowlen_entryMap _ _ _ hi, rowlen_eye hi]
    · intro i j hi hj
      rw [length_entryMap] at hi
      rw [getD_rowlen_entryMap _ _ _ hi] at hj
      rw [entry_entryMap _ _ _ hi hj]
      have himem := hidsmem hi
      have hjmem := hidsmem hj
      rw [entry_reassemble A ids hv (hv.2 _ himem) (hv.2 _ hjmem),
        if_pos himem, entry_eye hi hj]
      by_cases hij : j = i
      · rw [if_pos hij, hij, if_pos rfl]
      · have hne : ids.getD j 0 ≠ ids.getD i 0 := by
          rw [List.getD_eq_getElem _ _ hj, List.getD_eq_getElem _ _ hi]
          exact fun h => hij ((hv.1.getElem_inj_iff).mp h)
        rw [if_neg hne, if_neg hij]

theorem claim_C10_witness :
    IsSquare ([[7]] : Mat ℤ) ([[7]] : Mat ℤ).length ∧
      ValidIds (([[7]] : Mat ℤ).length + ([1] : List Nat).length) [1] ∧
      chop_in_blocks (reassemble ([[7]] : Mat ℤ) [1]) [1]
        = ([[7]], List.replicate 1 (List.replicate 1 (0 : ℤ)), eye 1) := by
  refine ⟨by decide, by decide, ?_⟩
  exact claim_C10 ℤ [[7]] [1] (by decide) (by decide)

/-- C2: every batched operation applied per slice equals the
corresponding single-object operation on that slice — for the three chop
blocks, the two vector parts, and both reassemblies — and a batch of
size 1 gives exactly the single-object result. -/
theorem claim_C2 :
    (∀ (α : Type) [Zero α] (ms : List (Mat α)) (ids : List Nat) (s : Nat),
      s < ms.length →
      ((chop_in_blocks_multi ms ids).1.getD s []
          = (chop_in_blocks (ms.getD s []) ids).1 ∧
       (chop_in_blocks_multi ms ids).2.1.getD s []
          = (chop_in_blocks (ms.getD s []) ids).2.1 ∧
       (chop_in_blocks_multi ms ids).2.2.getD s []
          = (chop_in_blocks (ms.getD s []) ids).2.2)) ∧
    (∀ (α : Type) [Zero α] (vs : List (Vec α)) (ids : List Nat) (s : Nat),
      s < vs.length → (vs.getD s []).length = (vs.getD 0 []).length →
      ((chop_in_blocks_vector_multi vs ids).1.getD s []
          = (chop_in_blocks_vector (vs.getD s []) ids).1 ∧
       (chop_in_blocks_vector_multi vs ids).2.getD s []
          = (chop_in_blocks_vector (vs.getD s []) ids).2)) ∧
    (∀ (α : Type) [Zero α] [One α] (As : List (Mat α)) (ids : List Nat)
      (s : Nat), s < As.length →
      (As.getD s []).length = (As.getD 0 []).length →
      ValidIds ((As.getD 0 []).length + ids.length) ids →
      (reassemble_multi As ids).getD s [] = reassemble (As.getD s []) ids) ∧
    (∀ (α : Type) [Zero α] (vas : List (Vec α)) (ids : List Nat) (s : Nat),
      s < vas.length → (vas.getD s []).length = (vas.getD 0 []).length →
      (reassemble_vector_multi vas ids).getD s []
        = reassemble_vector (vas.getD s []) ids) ∧
    (∀ (α : Type) [Zero α] [One α] (m A : Mat α) (v va : Vec α)
      (ids : List Nat),
      chop_in_blocks_multi [m] ids
        = ([(chop_in_blocks m ids).1], [(chop_in_blocks m ids).2.1],
           [(chop_in_blocks m ids).2.2]) ∧
      chop_in_blocks_vector_multi [v] ids
        = ([(chop_in_blocks_vector v ids).1],
           [(chop_in_blocks_vector v ids).2]) ∧
      reassemble_vector_multi [va] ids = [reassemble_vector va ids] ∧
      (ValidIds (A.length + ids.length) ids →
        reassemble_multi [A] ids = [reassemble A ids])) := by
  refine ⟨?_, ?_, ?_, ?_, ?_⟩
  · intro α _ ms ids s hs
    refine ⟨?_, ?_, ?_⟩
    · show (ms.map (fun m => (npDelete m ids).map
        (fun r => npDelete r ids))).getD s [] = _
      rw [getD_map_lt _ ms hs [] []]
      rfl
    · show (ms.map (fun m => npDelete (m.map
        (fun r => selectD r 0 ids)) ids)).getD s [] = _
      rw [getD_map_lt _ ms hs [] []]
      rfl
    · show (ms.map (fun m => (selectD m [] ids).map
        (fun r => selectD r 0 ids))).getD s [] = _
      rw [getD_map_lt _ ms hs [] []]
      exact chop_multi_C_slice (ms.getD s []) ids
  · intro α _ vs ids s hs hlen
    constructor
    · show (vs.map (fun v => selectD v 0
        (idtokeep (vs.getD 0 []).length ids))).getD s [] = _
      rw [getD_map_lt _ vs hs [] []]
      show selectD (vs.getD s []) 0 (idtokeep (vs.getD 0 []).length ids)
        = selectD (vs.getD s []) 0 (idtokeep (vs.getD s []).length ids)
      rw [hlen]
    · show (vs.map (fun v => selectD v 0 ids)).getD s [] = _
      rw [getD_map_lt _ vs hs [] []]
      rfl
  · intro α _ _ As ids s hs hrect hv
    exact reassemble_multi_eq_single As ids hs hrect hv
  · intro α _ vas ids s hs hlen
    show (vas.map (fun va => vwrites
        (List.replicate ((vas.getD 0 []).length + ids.length) (0 : α))
        ((idtokeep ((vas.getD 0 []).length + ids.length) ids).enum.map
          (fun p => (p.2, va.getD p.1 0))))).getD s [] = _
    rw [getD_map_lt _ vas hs [] []]
    show vwrites (List.replicate ((vas.getD 0 []).length + ids.length) (0 : α))
        ((idtokeep ((vas.getD 0 []).length + ids.length) ids).enum.map
          (fun p => (p.2, (vas.getD s []).getD p.1 0)))
      = vwrites (List.replicate ((vas.getD s []).length + ids.length) (0 : α))
        ((idtokeep ((vas.getD s []).length + ids.length) ids).enum.map
          (fun p => (p.2, (vas.getD s []).getD p.1 0)))
    rw [hlen]
  · intro α _ _ m A v va ids
    refine ⟨?_, rfl, rfl, ?_⟩
    · rw [Prod.mk.injEq, Prod.mk.injEq]
      refine ⟨rfl, rfl, ?_⟩
      show [(selectD m [] ids).map (fun r => selectD r 0 ids)] = _
      rw [chop_multi_C_slice]
      rfl
    · intro hv
      have hlen1 : (reassemble_multi [A] ids).length = 1 := by
        show ([A].map _).length = 1
        rw [List.length_map]
        rfl
      have h0 := @reassemble_multi_eq_single α _ _ [A] ids 0 (by simp) rfl hv
      exact eq_singleton_of_getD [] hlen1 h0

theorem claim_C2_witness :
    1 < ([[[1,2],[2,4]], [[5,6],[6,8]]] : List (Mat ℤ)).length ∧
      ValidIds ((([[[9]]] : List (Mat ℤ)).getD 0 []).length
        + ([1] : List Nat).length) [1] ∧
      (chop_in_blocks_multi ([[[1,2],[2,4]], [[5,6],[6,8]]] : List (Mat ℤ))
          [0]).1.getD 1 []
        = (chop_in_blocks (([[[1,2],[2,4]], [[5,6],[6,8]]] :
            List (Mat ℤ)).getD 1 []) [0]).1 ∧
      (reassemble_multi ([[[9]]] : List (Mat ℤ)) [1]).getD 0 []
        = reassemble (([[[9]]] : List (Mat ℤ)).getD 0 []) [1] := by
  refine ⟨by decide, by decide, ?_, ?_⟩
  · exact (claim_C2.1 ℤ [[[1,2],[2,4]], [[5,6],[6,8]]] [0] 1 (by decide)).1
  · exact claim_C2.2.2.1 ℤ [[[9]]] [1] 0 (by decide) (by decide) (by decide)

end Ops
